import Mathlib

/-!
Verification of the gobandit multi-armed-bandit server (`src/main.go`,
`src/models/models.go`, `src/init.sql`).

Shallow embedding conventions:

* Go `float64` arithmetic on the code paths we verify is modelled by exact
  rational arithmetic (`ℚ`).  The transcendental library functions
  `math.Log`, `math.Sqrt` and `math.Pow` are not given concrete values:
  the model is parameterised by functions `glog gsqrt : ℚ → ℚ` and
  `gpow : ℚ → ℚ → ℚ`, and theorems that need a fact about them take it as
  a hypothesis (e.g. `9 ≤ t → 3 ≤ gsqrt t`, a consequence of `math.Sqrt`
  being correctly rounded and monotone with `sqrt 9 = 3` exact).
* IEEE special values: Go's `<` comparison returns `false` whenever one
  operand is NaN.  `math.Log` returns NaN on negative input and `-Inf` at
  `0`.  The acceptance test of the gamma sampler is therefore modelled
  with an explicit `0 < v` guard (see `gammaAccept`), and `x / (x + y)`
  with `x + y = 0` (the `0/0` NaN) is modelled as `none`.
* The random source: `rand.NormFloat64` / `rand.Float64` draws are passed
  in explicitly.  The rejection loop of the gamma sampler receives a
  finite list of `(x, u)` draw pairs; the result is `none` when no draw
  in the list is accepted (the Go loop would still be running, having
  consumed more randomness).
-/

namespace Gobandit

/-- The value of the Go expression `1/3` appearing in
`d := alpha - 1/3` (main.go, `gammaDistribution`).  Both operands are
untyped integer constants, so Go evaluates the quotient with integer
division: the constant is `0`, not one third. -/
def goThird : ℚ := ((1 / 3 : ℤ) : ℚ)

/-- Randomness consumed by one call of `gammaDistribution`:
`u0` is the `rand.Float64()` used by the `alpha < 1` branch, and
`draws` is the list of `(rand.NormFloat64(), rand.Float64())` pairs
consumed by the rejection loop of the `alpha ≥ 1` branch. -/
structure GammaRand where
  u0 : ℚ
  draws : List (ℚ × ℚ)
deriving DecidableEq

/-- The acceptance test of the rejection loop in `gammaDistribution`
(main.go):

`u < 1-0.331*math.Pow(x, 4) || math.Log(u) < 0.5*x*x+d*(1-v+math.Log(v))`

with `v = (1 + c·x)³` (the Go code cubes by multiplication, `v = v*v*v`;
`math.Pow(x, 4)` is modelled exactly as `x*x*x*x`).  Float semantics of the second disjunct:
if `v < 0` then `math.Log(v)` is NaN, the whole right-hand side is NaN
and the comparison is `false`; if `v = 0` then `math.Log(v) = -Inf`, the
right-hand side is `-Inf` and the comparison is `false` as well (the
left-hand side is `-Inf` at worst, and `-Inf < -Inf` is `false`);
if `v > 0` and `u = 0` then `math.Log(u) = -Inf` is below the finite
right-hand side; otherwise both sides are finite. -/
def gammaAccept (glog : ℚ → ℚ) (d c x u : ℚ) : Bool :=
  let v1 := 1 + c * x
  let v := v1 * v1 * v1
  decide (u < 1 - 0.331 * (x * x * x * x)) ||
    (decide (0 < v) &&
      (decide (u = 0) ||
        (decide (0 < u) && decide (glog u < 0.5 * x * x + d * (1 - v + glog v)))))

/-- The `alpha ≥ 1` rejection loop of `gammaDistribution` (main.go):
`d := alpha - 1/3`, `c := 1 / math.Sqrt(9*d)` (computed once; written
inside the step here, with the same value at every iteration), then
draw `(x, u)` pairs until `gammaAccept` holds and return `d * v`.
`none` means the Go loop has not yet accepted after the given draws. -/
def gammaLoop (glog gsqrt : ℚ → ℚ) (alpha : ℚ) : List (ℚ × ℚ) → Option ℚ
  | [] => none
  | (x, u) :: rest =>
    let d := alpha - goThird
    let c := 1 / gsqrt (9 * d)
    let v1 := 1 + c * x
    let v := v1 * v1 * v1
    if gammaAccept glog d c x u then some (d * v) else gammaLoop glog gsqrt alpha rest

/-- `gammaDistribution` (main.go).  For `alpha < 1` the Go code makes one
recursive call `gammaDistribution(1+alpha) * math.Pow(rand.Float64(), 1/alpha)`;
since `1 + alpha ≥ 1` whenever `alpha > 0`, that call runs the rejection
loop directly, and the recursion is unrolled here (the model is faithful
for `alpha > 0`, the contract's domain). -/
def gammaDistribution (glog gsqrt : ℚ → ℚ) (gpow : ℚ → ℚ → ℚ) (alpha : ℚ)
    (r : GammaRand) : Option ℚ :=
  if alpha < 1 then
    (gammaLoop glog gsqrt (1 + alpha) r.draws).map (fun g => g * gpow r.u0 (1 / alpha))
  else
    gammaLoop glog gsqrt alpha r.draws

/-- `betaDistribution` (main.go): `x := gammaDistribution(alpha)`,
`y := gammaDistribution(beta)`, `return x / (x + y)`.  There is no guard
in the Go code: when `x + y = 0` the division is IEEE `0/0 = NaN`
(the gamma samples are non-negative, so `x + y = 0` means `x = y = 0`),
modelled as `none`. -/
def betaDistribution (glog gsqrt : ℚ → ℚ) (gpow : ℚ → ℚ → ℚ)
    (alpha beta : ℚ) (rx ry : GammaRand) : Option ℚ :=
  match gammaDistribution glog gsqrt gpow alpha rx,
        gammaDistribution glog gsqrt gpow beta ry with
  | some x, some y => if x + y = 0 then none else some (x / (x + y))
  | _, _ => none

/-- `models.Arm` (models/models.go).  The counters are `int` in Go and
`INTEGER DEFAULT 0` in the database (init.sql); they start at 0 and are
only ever incremented, so they are modelled as `ℕ`. -/
structure Arm where
  id : String
  testID : String
  name : String
  successes : ℕ
  failures : ℕ
  description : String
  createdAt : String
  updatedAt : String
deriving DecidableEq

/-- The zero value of the Go struct `models.Arm`: the initial value of
the `selected` variable in `thompsonSampling`. -/
def armZero : Arm :=
  { id := "", testID := "", name := "", successes := 0, failures := 0,
    description := "", createdAt := "", updatedAt := "" }

/-- Randomness consumed by one `betaDistribution` call: one `GammaRand`
per gamma draw, `gx` first (for `x`), `gy` second (for `y`). -/
structure BetaRand where
  gx : GammaRand
  gy : GammaRand
deriving DecidableEq

/-- The per-arm sample of `thompsonSampling` (main.go):
`betaDistribution(float64(arm.Successes+1), float64(arm.Failures+1))`. -/
def armBeta (glog gsqrt : ℚ → ℚ) (gpow : ℚ → ℚ → ℚ) (r : BetaRand) (arm : Arm) :
    Option ℚ :=
  betaDistribution glog gsqrt gpow ((arm.successes : ℚ) + 1) ((arm.failures : ℚ) + 1)
    r.gx r.gy

/-- Advance the random stream past the draws of one loop iteration. -/
def shiftRnd (rnd : ℕ → BetaRand) : ℕ → BetaRand := fun i => rnd (i + 1)

/-- The `for _, arm := range arms` loop of `thompsonSampling` (main.go):
running state `maxSample` (starts at `0.0`) and `selected` (starts at the
zero `Arm`); an arm replaces the selection exactly when its sample is
strictly greater (`sample > maxSample`) than the running maximum.
Iteration `k` consumes `rnd k`.  A `none` sample (model: the rejection
loop did not accept within the supplied draws) leaves the state unchanged,
as an IEEE NaN sample would (`NaN > maxSample` is `false`). -/
def tsLoop (glog gsqrt : ℚ → ℚ) (gpow : ℚ → ℚ → ℚ) :
    List Arm → (ℕ → BetaRand) → ℚ → Arm → Arm
  | [], _, _, selected => selected
  | arm :: rest, rnd, maxSample, selected =>
    match armBeta glog gsqrt gpow (rnd 0) arm with
    | some sample =>
      if maxSample < sample then
        tsLoop glog gsqrt gpow rest (shiftRnd rnd) sample arm
      else
        tsLoop glog gsqrt gpow rest (shiftRnd rnd) maxSample selected
    | none => tsLoop glog gsqrt gpow rest (shiftRnd rnd) maxSample selected

/-- `thompsonSampling` (main.go), after the `rand.Seed` call: the
selection loop started with `maxSample = 0` and `selected = armZero`. -/
def thompsonSampling (glog gsqrt : ℚ → ℚ) (gpow : ℚ → ℚ → ℚ)
    (rnd : ℕ → BetaRand) (arms : List Arm) : Arm :=
  tsLoop glog gsqrt gpow arms rnd 0 armZero

/-- Well-formedness of the randomness actually produced by Go's
`math/rand`: every `rand.Float64()` value (`u0` and the second component
of each loop draw) lies in `[0, 1)`; only the lower bound is needed. -/
def WFGammaRand (r : GammaRand) : Prop :=
  0 ≤ r.u0 ∧ ∀ p ∈ r.draws, 0 ≤ p.2

/-- Both gamma draw bundles of a beta draw are well formed. -/
def WFBetaRand (r : BetaRand) : Prop := WFGammaRand r.gx ∧ WFGammaRand r.gy

/-- The state of Go's shared `math/rand` generator: the seed last
installed by `rand.Seed` and the number of draws consumed since. -/
structure RandState where
  seed : ℤ
  pos : ℕ
deriving DecidableEq

/-- `thompsonSampling` (main.go) including its very first statement,
`rand.Seed(time.Now().UnixNano())`: the incoming generator state `g` is
overwritten with `⟨now, 0⟩` before any draw, so the draws the selection
observes are the stream determined by the clock value `now` alone
(`prng s i` is the `i`-th bundle of draws after seeding with `s`).
Returns the selected arm together with the generator state left behind. -/
def thompsonSamplingTimed (glog gsqrt : ℚ → ℚ) (gpow : ℚ → ℚ → ℚ)
    (prng : ℤ → ℕ → BetaRand) (now : ℤ) (g : RandState) (arms : List Arm) :
    Arm × RandState :=
  let seeded : RandState := { seed := now, pos := 0 }
  (thompsonSampling glog gsqrt gpow (fun i => prng seeded.seed (seeded.pos + i)) arms,
   { seeded with pos := seeded.pos + arms.length })

/-- Outcome of `handleGetArm` (main.go): either the HTTP 404 error body
or the JSON-encoded selected arm. -/
inductive GetArmResult where
  | httpError : String → GetArmResult
  | ok : Arm → GetArmResult
deriving DecidableEq

/-- `handleGetArm` (main.go), after the arms of the test have been read
from the database: `if len(arms) == 0` respond
`http.Error(w, "test not found", http.StatusNotFound)`; otherwise encode
`thompsonSampling(arms)`. -/
def handleGetArm (glog gsqrt : ℚ → ℚ) (gpow : ℚ → ℚ → ℚ)
    (prng : ℤ → ℕ → BetaRand) (now : ℤ) (g : RandState) (arms : List Arm) :
    GetArmResult :=
  if arms.isEmpty then .httpError "test not found"
  else .ok (thompsonSamplingTimed glog gsqrt gpow prng now g arms).1

/-- The row update of `handleRecordResult`'s SQL statement (main.go):
`successes = CASE WHEN $1 THEN successes + 1 ELSE successes END`,
`failures = CASE WHEN $1 THEN failures ELSE failures + 1 END`,
`updated_at = NOW()`. -/
def updateArmRow (success : Bool) (nowStr : String) (a : Arm) : Arm :=
  { a with
    successes := if success then a.successes + 1 else a.successes,
    failures := if success then a.failures else a.failures + 1,
    updatedAt := nowStr }

/-- `handleRecordResult` (main.go) acting on the `arms` table, modelled
as a list of rows keyed by `id` (unique, it is the primary key).  The
`UPDATE ... WHERE id = $2` rewrites every row whose key matches;
`RETURNING successes, failures` yields the updated counters of the
matched row, and matching no row raises `sql.ErrNoRows`, answered with
HTTP 404 "arm not found" — modelled as a `none` response. -/
def recordResult (success : Bool) (nowStr : String) (armID : String)
    (store : List (String × Arm)) : List (String × Arm) × Option (ℕ × ℕ) :=
  let updated := store.map (fun p =>
    if p.1 == armID then (p.1, updateArmRow success nowStr p.2) else p)
  match store.find? (fun p => p.1 == armID) with
  | some p =>
    (updated, some ((updateArmRow success nowStr p.2).successes,
                    (updateArmRow success nowStr p.2).failures))
  | none => (updated, none)

/-! Helper lemmas. -/

/-- Go's untyped integer constant `1/3` is zero. -/
lemma goThird_eq : goThird = 0 := by decide

/-- A draw with `v = (1+c·x)³ ≤ 0` is never accepted: such an `x` has
`|x| ≥ 3` (because `c = 1/sqrt(9d) ≤ 1/3`), so `0.331·x⁴ ≥ 26.8 > 1`
kills the squeeze test, and the logarithmic test fails on its `0 < v`
(NaN / `-Inf`) guard. -/
lemma gammaAccept_eq_false (glog : ℚ → ℚ) (d c x u s9 : ℚ)
    (hc : c = 1 / s9) (hs9 : 3 ≤ s9) (hu : 0 ≤ u)
    (hv : (1 + c * x) * (1 + c * x) * (1 + c * x) ≤ 0) :
    gammaAccept glog d c x u = false := by
  have hs9pos : (0 : ℚ) < s9 := lt_of_lt_of_le (by norm_num) hs9
  have hcpos : 0 < c := by rw [hc]; exact div_pos one_pos hs9pos
  have hcle : c ≤ 1 / 3 := by
    rw [hc]
    exact one_div_le_one_div_of_le (by norm_num) hs9
  have h1 : 1 + c * x ≤ 0 := by
    by_contra hpos
    push_neg at hpos
    nlinarith [mul_pos (mul_pos hpos hpos) hpos]
  have hx : x ≤ -3 := by
    by_contra hgt
    push_neg at hgt
    have : c * (-3) < c * x := (mul_lt_mul_left hcpos).2 hgt
    nlinarith
  have h9 : 9 ≤ x * x := by nlinarith
  have h81 : 81 ≤ x * x * x * x := by nlinarith
  have hfirst : ¬ (u < 1 - 0.331 * (x * x * x * x)) := by
    have : 1 - 0.331 * (x * x * x * x) ≤ u := by nlinarith
    exact not_lt.2 this
  have hsecond : ¬ (0 < (1 + c * x) * (1 + c * x) * (1 + c * x)) := not_lt.2 hv
  simp [gammaAccept, hfirst, hsecond]

/-- Every value the `alpha ≥ 1` rejection loop returns is strictly
positive: acceptance forces `v > 0`, and `d = alpha` (Go computes
`alpha - 0`, see `goThird`) is at least `1`. -/
lemma gammaLoop_pos (glog gsqrt : ℚ → ℚ) (alpha : ℚ) (ha : 1 ≤ alpha)
    (hs : 3 ≤ gsqrt (9 * (alpha - goThird))) :
    ∀ draws : List (ℚ × ℚ), (∀ p ∈ draws, 0 ≤ p.2) →
      ∀ r, gammaLoop glog gsqrt alpha draws = some r → 0 < r := by
  intro draws
  induction draws with
  | nil => intro _ r h; simp [gammaLoop] at h
  | cons p rest ih =>
    obtain ⟨x, u⟩ := p
    intro hu r h
    simp only [gammaLoop] at h
    by_cases hacc : gammaAccept glog (alpha - goThird)
        (1 / gsqrt (9 * (alpha - goThird))) x u
    · rw [if_pos hacc] at h
      have hd1 : 1 ≤ alpha - goThird := by rw [goThird_eq]; linarith
      have hvpos : 0 < (1 + 1 / gsqrt (9 * (alpha - goThird)) * x) *
          (1 + 1 / gsqrt (9 * (alpha - goThird)) * x) *
          (1 + 1 / gsqrt (9 * (alpha - goThird)) * x) := by
        by_contra hvle
        push_neg at hvle
        have := gammaAccept_eq_false glog (alpha - goThird)
          (1 / gsqrt (9 * (alpha - goThird))) x u (gsqrt (9 * (alpha - goThird)))
          rfl hs (hu (x, u) (List.mem_cons_self _ _)) hvle
        rw [this] at hacc
        exact Bool.false_ne_true hacc
      have hr : (alpha - goThird) * ((1 + 1 / gsqrt (9 * (alpha - goThird)) * x) *
          (1 + 1 / gsqrt (9 * (alpha - goThird)) * x) *
          (1 + 1 / gsqrt (9 * (alpha - goThird)) * x)) = r := by
        exact Option.some.inj h
      rw [← hr]
      exact mul_pos (lt_of_lt_of_le one_pos hd1) hvpos
    · rw [if_neg hacc] at h
      exact ih (fun q hq => hu q (List.mem_cons_of_mem _ hq)) r h

/-- Any value `gammaDistribution` returns for a positive shape is
non-negative: the `alpha ≥ 1` loop returns positive values, and the
`alpha < 1` branch multiplies such a value by `math.Pow(u, 1/alpha) ≥ 0`. -/
lemma gammaDistribution_nonneg (glog gsqrt : ℚ → ℚ) (gpow : ℚ → ℚ → ℚ)
    (alpha : ℚ) (r : GammaRand) (ha : 0 < alpha)
    (hsq : ∀ t, 9 ≤ t → 3 ≤ gsqrt t)
    (hpow : ∀ b e, 0 ≤ b → 0 ≤ gpow b e) (hwf : WFGammaRand r) :
    ∀ g, gammaDistribution glog gsqrt gpow alpha r = some g → 0 ≤ g := by
  intro g h
  unfold gammaDistribution at h
  by_cases hlt : alpha < 1
  · rw [if_pos hlt] at h
    obtain ⟨g', hg', hmap⟩ := Option.map_eq_some'.1 h
    have h1a : 1 ≤ 1 + alpha := by linarith
    have hs : 3 ≤ gsqrt (9 * (1 + alpha - goThird)) := by
      apply hsq
      rw [goThird_eq]
      nlinarith
    have hg'pos : 0 < g' := gammaLoop_pos glog gsqrt (1 + alpha) h1a hs r.draws hwf.2 g' hg'
    rw [← hmap]
    exact mul_nonneg (le_of_lt hg'pos) (hpow r.u0 (1 / alpha) hwf.1)
  · rw [if_neg hlt] at h
    push_neg at hlt
    have hs : 3 ≤ gsqrt (9 * (alpha - goThird)) := by
      apply hsq
      rw [goThird_eq]
      nlinarith
    exact le_of_lt (gammaLoop_pos glog gsqrt alpha hlt hs r.draws hwf.2 g h)

/-- For shapes `alpha, beta ≥ 1` (the only shapes `thompsonSampling`
produces: smoothed counters `n + 1`), both gamma samples are strictly
positive, so `x / (x + y)` is defined and strictly positive. -/
lemma betaDistribution_pos (glog gsqrt : ℚ → ℚ) (gpow : ℚ → ℚ → ℚ)
    (alpha beta : ℚ) (rx ry : GammaRand) (ha : 1 ≤ alpha) (hb : 1 ≤ beta)
    (hsq : ∀ t, 9 ≤ t → 3 ≤ gsqrt t)
    (hwx : WFGammaRand rx) (hwy : WFGammaRand ry) :
    ∀ s, betaDistribution glog gsqrt gpow alpha beta rx ry = some s → 0 < s := by
  intro s h
  unfold betaDistribution at h
  rcases hgx : gammaDistribution glog gsqrt gpow alpha rx with _ | x
  · rw [hgx] at h; exact absurd h (by simp)
  rcases hgy : gammaDistribution glog gsqrt gpow beta ry with _ | y
  · rw [hgx, hgy] at h; exact absurd h (by simp)
  rw [hgx, hgy] at h
  have hxpos : 0 < x := by
    have hnl : ¬ alpha < 1 := not_lt.2 ha
    rw [gammaDistribution, if_neg hnl] at hgx
    have hs : 3 ≤ gsqrt (9 * (alpha - goThird)) := by
      apply hsq; rw [goThird_eq]; nlinarith
    exact gammaLoop_pos glog gsqrt alpha ha hs rx.draws hwx.2 x hgx
  have hypos : 0 < y := by
    have hnl : ¬ beta < 1 := not_lt.2 hb
    rw [gammaDistribution, if_neg hnl] at hgy
    have hs : 3 ≤ gsqrt (9 * (beta - goThird)) := by
      apply hsq; rw [goThird_eq]; nlinarith
    exact gammaLoop_pos glog gsqrt beta hb hs ry.draws hwy.2 y hgy
  have hsum : x + y ≠ 0 := ne_of_gt (add_pos hxpos hypos)
  have h' : (if x + y = 0 then (none : Option ℚ) else some (x / (x + y))) = some s := h
  rw [if_neg hsum] at h'
  rw [← Option.some.inj h']
  exact div_pos hxpos (add_pos hxpos hypos)

/-- Behaviour of the selection loop when every arm's beta draw is
defined: either no sample beats the incoming running maximum `m` and the
incoming `sel` survives, or the loop returns the first index whose sample
strictly exceeds every earlier sample and is at least every later one
(the first position attaining the maximum, by the strict `>` update). -/
lemma tsLoop_spec (glog gsqrt : ℚ → ℚ) (gpow : ℚ → ℚ → ℚ) :
    ∀ (l : List Arm) (rnd : ℕ → BetaRand) (m : ℚ) (sel : Arm) (s : ℕ → ℚ),
    (∀ k, (hk : k < l.length) →
      armBeta glog gsqrt gpow (rnd k) (l.get ⟨k, hk⟩) = some (s k)) →
    (tsLoop glog gsqrt gpow l rnd m sel = sel ∧ ∀ k, k < l.length → s k ≤ m) ∨
    (∃ k, ∃ hk : k < l.length, tsLoop glog gsqrt gpow l rnd m sel = l.get ⟨k, hk⟩ ∧
      m < s k ∧ (∀ j, j < k → s j < s k) ∧ ∀ j, j < l.length → s j ≤ s k) := by
  intro l
  induction l with
  | nil =>
    intro rnd m sel s _
    left
    exact ⟨rfl, fun k hk => absurd hk (Nat.not_lt_zero k)⟩
  | cons a rest ih =>
    intro rnd m sel s hs
    have hs0 : armBeta glog gsqrt gpow (rnd 0) a = some (s 0) := hs 0 (Nat.succ_pos _)
    have hrest : ∀ k, (hk : k < rest.length) →
        armBeta glog gsqrt gpow (shiftRnd rnd k) (rest.get ⟨k, hk⟩) = some (s (k + 1)) := by
      intro k hk
      exact hs (k + 1) (Nat.succ_lt_succ hk)
    by_cases hcmp : m < s 0
    · have hstep : tsLoop glog gsqrt gpow (a :: rest) rnd m sel =
          tsLoop glog gsqrt gpow rest (shiftRnd rnd) (s 0) a := by
        simp only [tsLoop, hs0]
        rw [if_pos hcmp]
      rcases ih (shiftRnd rnd) (s 0) a (fun k => s (k + 1)) hrest with
        ⟨heq, hle⟩ | ⟨k, hk, heq, hgt, hbefore, hall⟩
      · right
        refine ⟨0, Nat.succ_pos _, ?_, hcmp, ?_, ?_⟩
        · rw [hstep]; exact heq
        · intro j hj; exact absurd hj (Nat.not_lt_zero j)
        · intro j hj
          cases j with
          | zero => exact le_refl _
          | succ j' => exact hle j' (Nat.lt_of_succ_lt_succ hj)
      · right
        refine ⟨k + 1, Nat.succ_lt_succ hk, ?_, lt_trans hcmp hgt, ?_, ?_⟩
        · rw [hstep]; exact heq.trans rfl
        · intro j hj
          cases j with
          | zero => exact hgt
          | succ j' => exact hbefore j' (Nat.lt_of_succ_lt_succ hj)
        · intro j hj
          cases j with
          | zero => exact le_of_lt hgt
          | succ j' => exact hall j' (Nat.lt_of_succ_lt_succ hj)
    · have hstep : tsLoop glog gsqrt gpow (a :: rest) rnd m sel =
          tsLoop glog gsqrt gpow rest (shiftRnd rnd) m sel := by
        simp only [tsLoop, hs0]
        rw [if_neg hcmp]
      have hle0 : s 0 ≤ m := not_lt.1 hcmp
      rcases ih (shiftRnd rnd) m sel (fun k => s (k + 1)) hrest with
        ⟨heq, hle⟩ | ⟨k, hk, heq, hgt, hbefore, hall⟩
      · left
        refine ⟨by rw [hstep]; exact heq, ?_⟩
        intro j hj
        cases j with
        | zero => exact hle0
        | succ j' => exact hle j' (Nat.lt_of_succ_lt_succ hj)
      · right
        refine ⟨k + 1, Nat.succ_lt_succ hk, ?_, hgt, ?_, ?_⟩
        · rw [hstep]; exact heq.trans rfl
        · intro j hj
          cases j with
          | zero => exact lt_of_le_of_lt hle0 hgt
          | succ j' => exact hbefore j' (Nat.lt_of_succ_lt_succ hj)
        · intro j hj
          cases j with
          | zero => exact le_of_lt (lt_of_le_of_lt hle0 hgt)
          | succ j' => exact hall j' (Nat.lt_of_succ_lt_succ hj)

/-! Claim theorems. -/

/-- C1.  On a non-empty arm list, `thompsonSampling` samples each arm's
`betaDistribution(successes+1, failures+1)` draw, tracks the running
maximum with a strict `>` comparison, and returns the arm at the first
position attaining the maximum sample: every earlier arm's sample is
strictly smaller (so on ties the first arm in iteration order wins) and
every sample is at most the winner's (so a strictly greatest sample
wins).  The hypotheses say only that the randomness is the kind Go's
`math/rand` produces, that `math.Sqrt` is bounded below by 3 on `[9, ∞)`,
and that each arm's beta draw terminated with value `s k`. -/
theorem thompson_selects_first_strict_argmax
    (glog gsqrt : ℚ → ℚ) (gpow : ℚ → ℚ → ℚ) (rnd : ℕ → BetaRand)
    (arms : List Arm) (s : ℕ → ℚ)
    (hne : arms ≠ [])
    (hsq : ∀ t, 9 ≤ t → 3 ≤ gsqrt t)
    (hwf : ∀ i, WFBetaRand (rnd i))
    (hsamp : ∀ k, (hk : k < arms.length) →
      armBeta glog gsqrt gpow (rnd k) (arms.get ⟨k, hk⟩) = some (s k)) :
    ∃ k, ∃ hk : k < arms.length,
      thompsonSampling glog gsqrt gpow rnd arms = arms.get ⟨k, hk⟩ ∧
      (∀ j, j < k → s j < s k) ∧
      (∀ j, j < arms.length → s j ≤ s k) := by
  have hpos : ∀ k, (hk : k < arms.length) → 0 < s k := by
    intro k hk
    exact betaDistribution_pos glog gsqrt gpow _ _ _ _
      (le_add_of_nonneg_left (Nat.cast_nonneg _))
      (le_add_of_nonneg_left (Nat.cast_nonneg _))
      hsq (hwf k).1 (hwf k).2 (s k) (hsamp k hk)
  rcases tsLoop_spec glog gsqrt gpow arms rnd 0 armZero s hsamp with
    ⟨_, hle⟩ | ⟨k, hk, heq, _, hbefore, hall⟩
  · exfalso
    obtain ⟨a, l, rfl⟩ : ∃ a l, arms = a :: l := by
      cases arms with
      | nil => exact absurd rfl hne
      | cons a l => exact ⟨a, l, rfl⟩
    have h0 := hle 0 (Nat.succ_pos _)
    have h1 := hpos 0 (Nat.succ_pos _)
    linarith
  · exact ⟨k, hk, heq, hbefore, hall⟩

/-- Witness for C1 at a concrete input exhibiting the tie-break: two
arms that draw the identical sample `1/2`; the first arm wins. -/
theorem thompson_selects_first_strict_argmax_witness :
    thompsonSampling (fun _ => 0) (fun _ => 3) (fun _ _ => 0)
      (fun _ => ⟨⟨0, [(0, 1/2)]⟩, ⟨0, [(0, 1/2)]⟩⟩)
      [⟨"a1", "t", "A", 0, 0, "", "", ""⟩, ⟨"a2", "t", "B", 0, 0, "", "", ""⟩] =
      ⟨"a1", "t", "A", 0, 0, "", "", ""⟩ := by
  obtain ⟨k, hk, heq, hbefore, -⟩ :=
    thompson_selects_first_strict_argmax (fun _ => 0) (fun _ => 3) (fun _ _ => 0)
      (fun _ => ⟨⟨0, [(0, 1/2)]⟩, ⟨0, [(0, 1/2)]⟩⟩)
      [⟨"a1", "t", "A", 0, 0, "", "", ""⟩, ⟨"a2", "t", "B", 0, 0, "", "", ""⟩]
      (fun _ => 1/2)
      (by simp)
      (fun t ht => by norm_num)
      (fun i => ⟨⟨le_refl 0, by intro p hp; simp at hp; rw [hp]; norm_num⟩,
                 ⟨le_refl 0, by intro p hp; simp at hp; rw [hp]; norm_num⟩⟩)
      (by
        intro k hk
        simp only [List.length_cons, List.length_nil] at hk
        have hk2 : k = 0 ∨ k = 1 := by omega
        rcases hk2 with rfl | rfl <;>
          norm_num [armBeta, betaDistribution, gammaDistribution, gammaLoop,
            gammaAccept, goThird, List.get])
  match k, hk with
  | 0, _ => exact heq
  | 1, _ => exact absurd (hbefore 0 (Nat.succ_pos _)) (by norm_num)

/-- C8.  A single-arm list always yields that arm: the arm's beta sample
is strictly positive, hence beats the initial running maximum `0`. -/
theorem thompson_single_arm
    (glog gsqrt : ℚ → ℚ) (gpow : ℚ → ℚ → ℚ) (rnd : ℕ → BetaRand)
    (a : Arm) (s : ℚ)
    (hsq : ∀ t, 9 ≤ t → 3 ≤ gsqrt t)
    (hwf : WFBetaRand (rnd 0))
    (hsamp : armBeta glog gsqrt gpow (rnd 0) a = some s) :
    thompsonSampling glog gsqrt gpow rnd [a] = a := by
  have hpos : 0 < s :=
    betaDistribution_pos glog gsqrt gpow _ _ _ _
      (le_add_of_nonneg_left (Nat.cast_nonneg _))
      (le_add_of_nonneg_left (Nat.cast_nonneg _))
      hsq hwf.1 hwf.2 s hsamp
  show tsLoop glog gsqrt gpow [a] rnd 0 armZero = a
  simp only [tsLoop, hsamp]
  rw [if_pos hpos]

/-- Witness for C8 at a concrete input. -/
theorem thompson_single_arm_witness :
    thompsonSampling (fun _ => 0) (fun _ => 3) (fun _ _ => 0)
      (fun _ => ⟨⟨0, [(0, 1/2)]⟩, ⟨0, [(0, 1/2)]⟩⟩)
      [⟨"only", "t", "Only", 3, 4, "", "", ""⟩] =
      ⟨"only", "t", "Only", 3, 4, "", "", ""⟩ :=
  thompson_single_arm (fun _ => 0) (fun _ => 3) (fun _ _ => 0)
    (fun _ => ⟨⟨0, [(0, 1/2)]⟩, ⟨0, [(0, 1/2)]⟩⟩)
    ⟨"only", "t", "Only", 3, 4, "", "", ""⟩ (4/9)
    (fun t ht => by norm_num)
    ⟨⟨le_refl 0, by intro p hp; simp at hp; rw [hp]; norm_num⟩,
     ⟨le_refl 0, by intro p hp; simp at hp; rw [hp]; norm_num⟩⟩
    (by norm_num [armBeta, betaDistribution, gammaDistribution, gammaLoop,
      gammaAccept, goThird])

/-- C2 (counter-evidence).  `betaDistribution` has no guard for the 0/0
case: with `alpha = beta = 1/2` and the `rand.Float64()` of the
`alpha < 1` branch drawing exactly `0`, both gamma samples are exactly
`0` (`math.Pow(0, 2) = 0`, modelled by the power function returning `0`
here), and the code returns the unguarded `0/0` — IEEE NaN (`none`),
not a defined fallback value in `[0, 1]`. -/
theorem betaDistribution_nan_no_fallback :
    betaDistribution (fun _ => 0) (fun _ => 3) (fun _ _ => 0) (1/2) (1/2)
      ⟨0, [(0, 1/2)]⟩ ⟨0, [(0, 1/2)]⟩ = none := by
  norm_num [betaDistribution, gammaDistribution, gammaLoop, gammaAccept, goThird]

/-- C3 (counter-evidence).  The Marsaglia–Tsang constant is computed as
`d := alpha - 1/3` in Go, but `1/3` there is untyped *integer* constant
division, equal to `0`: at shape `1` the loop accepts the draw `x = 0`
(so `v = 1`) and returns `d·v = 1`, not the `(1 - 1/3)·1 = 2/3` that
real-arithmetic subtraction of one third would give. -/
theorem gammaLoop_d_constant_bug :
    gammaLoop (fun _ => 0) (fun _ => 3) 1 [(0, 1/2)] = some 1 ∧
    (1 : ℚ) - goThird ≠ 1 - 1/3 := by
  constructor
  · norm_num [gammaLoop, gammaAccept, goThird]
  · rw [goThird_eq]; norm_num

/-- C4.  For every positive shape and any draws, every value
`gammaDistribution` returns is non-negative; and in the `shape ≥ 1`
rejection loop, a draw whose `v = (1 + c·x)³` is `≤ 0` is rejected and
the loop moves on to the next draw — it is never accepted and returned
(the code has no explicit `v ≤ 0` check, but such a draw fails both
acceptance tests: `x⁴ ≥ 81·d² ≥ 81` makes the squeeze bound negative,
and `math.Log(v)` is NaN/`-Inf`). -/
theorem gammaDistribution_nonneg_and_rejects
    (glog gsqrt : ℚ → ℚ) (gpow : ℚ → ℚ → ℚ) (alpha : ℚ) (r : GammaRand)
    (ha : 0 < alpha)
    (hsq : ∀ t, 9 ≤ t → 3 ≤ gsqrt t)
    (hpow : ∀ b e, 0 ≤ b → 0 ≤ gpow b e)
    (hwf : WFGammaRand r) :
    (∀ g, gammaDistribution glog gsqrt gpow alpha r = some g → 0 ≤ g) ∧
    (∀ x u rest, 1 ≤ alpha → 0 ≤ u →
      (1 + 1 / gsqrt (9 * (alpha - goThird)) * x) *
          (1 + 1 / gsqrt (9 * (alpha - goThird)) * x) *
          (1 + 1 / gsqrt (9 * (alpha - goThird)) * x) ≤ 0 →
      gammaLoop glog gsqrt alpha ((x, u) :: rest) =
        gammaLoop glog gsqrt alpha rest) := by
  constructor
  · exact gammaDistribution_nonneg glog gsqrt gpow alpha r ha hsq hpow hwf
  · intro x u rest ha1 hu hv
    have hs : 3 ≤ gsqrt (9 * (alpha - goThird)) := by
      apply hsq; rw [goThird_eq]; nlinarith
    have hacc := gammaAccept_eq_false glog (alpha - goThird)
      (1 / gsqrt (9 * (alpha - goThird))) x u (gsqrt (9 * (alpha - goThird)))
      rfl hs hu hv
    simp only [gammaLoop, hacc]
    rw [if_neg (by simp)]

/-- Witness for C4: at shape `1` the draw `x = -4` (where `v < 0`) is
rejected and redrawn, and the accepted result `1` is non-negative. -/
theorem gammaDistribution_nonneg_and_rejects_witness :
    (0 : ℚ) ≤ 1 ∧
    gammaLoop (fun _ => 0) (fun _ => 3) 1 [(-4, 1/2), (0, 1/2)] =
      gammaLoop (fun _ => 0) (fun _ => 3) 1 [(0, 1/2)] := by
  have h := gammaDistribution_nonneg_and_rejects (fun _ => 0) (fun _ => 3)
    (fun _ _ => 0) 1 ⟨0, [(0, 1/2)]⟩ (by norm_num)
    (fun t ht => by norm_num)
    (fun b e hb => le_refl 0)
    ⟨le_refl 0, by intro p hp; simp at hp; rw [hp]; norm_num⟩
  refine ⟨h.1 1 ?_, ?_⟩
  · norm_num [gammaDistribution, gammaLoop, gammaAccept, goThird]
  · exact h.2 (-4) (1/2) [(0, 1/2)] le_rfl (by norm_num) (by norm_num [goThird])

/-- C5.  When the named arm exists (its row is found), `recordResult`
increments exactly one counter by `1` — successes iff `success` is true,
failures iff it is false — leaves the other counter unchanged, and the
response carries exactly the post-increment pair. -/
theorem recordResult_increments_exactly_one
    (success : Bool) (nowStr armID : String)
    (store : List (String × Arm)) (p : String × Arm)
    (hfind : store.find? (fun q => q.1 == armID) = some p) :
    (recordResult success nowStr armID store).2 =
      some (p.2.successes + (if success then 1 else 0),
            p.2.failures + (if success then 0 else 1)) := by
  unfold recordResult
  rw [hfind]
  cases success <;> simp [updateArmRow]

/-- Witness for C5: recording a success on an arm at `(2, 7)` returns
`(3, 7)`. -/
theorem recordResult_increments_exactly_one_witness :
    (recordResult true "ts" "a1"
      [("a1", ⟨"a1", "t", "A", 2, 7, "", "", ""⟩)]).2 = some (3, 7) := by
  have h := recordResult_increments_exactly_one true "ts" "a1"
    [("a1", ⟨"a1", "t", "A", 2, 7, "", "", ""⟩)]
    ("a1", ⟨"a1", "t", "A", 2, 7, "", "", ""⟩) (by decide)
  simpa using h

/-- C9.  Recording against an arm id that matches no row mutates
nothing — the table is returned exactly as it was — and the response is
the `sql.ErrNoRows` failure (`none`, answered with HTTP 404
"arm not found"), not a counter pair. -/
theorem recordResult_unknown_arm_no_mutation
    (success : Bool) (nowStr armID : String) (store : List (String × Arm))
    (habs : ∀ q ∈ store, q.1 ≠ armID) :
    recordResult success nowStr armID store = (store, none) := by
  have hfind : store.find? (fun q => q.1 == armID) = none := by
    rw [List.find?_eq_none]
    intro q hq
    simpa using habs q hq
  have hmap : store.map (fun q =>
      if q.1 == armID then (q.1, updateArmRow success nowStr q.2) else q) = store := by
    induction store with
    | nil => rfl
    | cons q t iht =>
      have hq : (q.1 == armID) = false := by simpa using habs q (List.mem_cons_self _ _)
      simp only [List.map_cons, hq, Bool.false_eq_true, if_false]
      rw [iht (fun x hx => habs x (List.mem_cons_of_mem _ hx))
        (by rw [List.find?_eq_none] at hfind ⊢
            intro x hx
            exact hfind x (List.mem_cons_of_mem _ hx))]
  unfold recordResult
  rw [hfind, hmap]

/-- Witness for C9: recording against the unknown id `"zz"` leaves the
single-row table untouched and reports no counters. -/
theorem recordResult_unknown_arm_no_mutation_witness :
    recordResult false "ts" "zz" [("a1", armZero)] = ([("a1", armZero)], none) :=
  recordResult_unknown_arm_no_mutation false "ts" "zz" [("a1", armZero)]
    (by intro q hq; simp at hq; rw [hq]; decide)

/-- C7.  `handleGetArm` on an empty arm list signals the empty-set
failure — HTTP 404 with body "test not found" — and never encodes any
arm, in particular not a default or zero-valued one. -/
theorem handleGetArm_empty_signals_failure
    (glog gsqrt : ℚ → ℚ) (gpow : ℚ → ℚ → ℚ) (prng : ℤ → ℕ → BetaRand)
    (now : ℤ) (g : RandState) :
    handleGetArm glog gsqrt gpow prng now g [] =
      GetArmResult.httpError "test not found" ∧
    ∀ a : Arm, handleGetArm glog gsqrt gpow prng now g [] ≠ GetArmResult.ok a := by
  refine ⟨rfl, ?_⟩
  intro a h
  simp [handleGetArm] at h

/-- C10 (counter-evidence).  `thompsonSampling` begins with
`rand.Seed(time.Now().UnixNano())`, so the selection is a function of
the clock value alone: the generator state a caller starts from is
irrelevant (first conjunct), and a second selection run at the same
instant — even one consuming the generator state the first left
behind — observes the identical draw sequence and picks the identical
arm (second conjunct).  This is exactly the correlated-draw behaviour
the specification's once-at-process-start seeding is meant to exclude. -/
theorem thompson_reseeds_from_clock_each_call
    (glog gsqrt : ℚ → ℚ) (gpow : ℚ → ℚ → ℚ) (prng : ℤ → ℕ → BetaRand)
    (now : ℤ) (g1 g2 : RandState) (arms : List Arm) :
    thompsonSamplingTimed glog gsqrt gpow prng now g1 arms =
      thompsonSamplingTimed glog gsqrt gpow prng now g2 arms ∧
    (thompsonSamplingTimed glog gsqrt gpow prng now
        (thompsonSamplingTimed glog gsqrt gpow prng now g1 arms).2 arms).1 =
      (thompsonSamplingTimed glog gsqrt gpow prng now g1 arms).1 :=
  ⟨rfl, rfl⟩

end Gobandit
